import Mathlib

/-!
Verification of the name-case transformation and pluralization engine of the
rustisan CLI (src/utils/text.rs, src/commands/mod.rs, src/generators/mod.rs,
src/commands/make.rs).

Rust strings are modelled as `List Char` (Lean `Char` = Unicode scalar value =
Rust `char`).  Rust's `&str` byte slicing (`&s[i..j]`, `&s[..k]`) is modelled
byte-faithfully: a slice whose end points do not fall on UTF-8 character
boundaries panics in Rust, so the sliced operations return `Option` and a
panic is `none`.

Unicode case data is modelled exactly on the characters this development
exercises: ASCII letters map as in Rust, and every other character is treated
as caseless (it is its own uppercase and lowercase image, and is not
uppercase), with two exceptions recorded exactly as in Rust: U+1D400
MATHEMATICAL BOLD CAPITAL A, which has the Uppercase property but no
lowercase mapping (uppercase, its own lowercase image), and — in
`strToLower`, the model of `str::to_lowercase` — U+0130 LATIN CAPITAL LETTER
I WITH DOT ABOVE, whose lowercase mapping is the two characters `i` followed
by U+0307 COMBINING DOT ABOVE, so that lowercasing a string can change its
byte length (U+0130 is 2 bytes, its mapping 3 bytes).
-/

/-- Number of bytes of the UTF-8 encoding of a character (Rust `char::len_utf8`). -/
def charBytes (c : Char) : Nat :=
  if c.toNat < 0x80 then 1
  else if c.toNat < 0x800 then 2
  else if c.toNat < 0x10000 then 3
  else 4

/-- Byte length of a string (Rust `str::len`). -/
def byteLen (s : List Char) : Nat := (s.map charBytes).sum

/-- Is the character an ASCII uppercase letter `A`..`Z`? -/
def isAsciiUpper (c : Char) : Bool := 65 ≤ c.toNat && c.toNat ≤ 90

/-- Is the character an ASCII lowercase letter `a`..`z`? -/
def isAsciiLower (c : Char) : Bool := 97 ≤ c.toNat && c.toNat ≤ 122

/-- First character of the character's lowercase mapping: models Rust
`char::to_lowercase` followed by `.next().unwrap_or(ch)`.  Exact for ASCII
and for every character whose lowercase mapping begins with itself — all
characters that the statements about `to_snake_case`/`to_pascal_case`/
`to_camel_case`/`to_kebab_case` exercise.  It is not exact at U+0130 (whose
real mapping begins with `i`); that character is exercised only through
`strToLower`, which models its mapping exactly. -/
def asciiLowerChar (c : Char) : Char :=
  if isAsciiUpper c then Char.ofNat (c.toNat + 32) else c

/-- The character's uppercase mapping (collected): models Rust
`char::to_uppercase().collect::<String>()` for characters whose uppercase
mapping is a single character.  Exact for ASCII and for every character whose
uppercase mapping is itself. -/
def asciiUpperChar (c : Char) : Char :=
  if isAsciiLower c then Char.ofNat (c.toNat - 32) else c

/-- U+1D400 MATHEMATICAL BOLD CAPITAL A: has the Unicode Uppercase property
(category Lu) but no lowercase mapping, so Rust's `char::is_uppercase` is true
for it while `char::to_lowercase` yields the character itself. -/
def mathBoldCapitalA : Char := '𝐀'

/-- Rust `char::is_uppercase` (the Unicode Uppercase property), modelled
exactly on ASCII and on U+1D400; every other character of this development is
caseless, for which `false` is exact. -/
def rustIsUppercase (c : Char) : Bool := isAsciiUpper c || c == mathBoldCapitalA

/-- U+0130 LATIN CAPITAL LETTER I WITH DOT ABOVE: in Rust,
`'İ'.to_lowercase()` yields the two characters `i` followed by U+0307
COMBINING DOT ABOVE (SpecialCasing) — the one multi-character,
byte-length-changing lowercase mapping this development exercises. -/
def latinCapitalIDot : Char := 'İ'

/-- U+0307 COMBINING DOT ABOVE, the second character of the lowercase
mapping of `latinCapitalIDot`. -/
def combiningDotAbove : Char := Char.ofNat 0x0307

/-- Rust `char::to_lowercase` as a character list: the two characters
`i` + U+0307 for U+0130, otherwise the single character `asciiLowerChar c`.
Exact for ASCII, for every character whose lowercase mapping is itself, and
for U+0130. -/
def rustLowerMapping (c : Char) : List Char :=
  if c = latinCapitalIDot then ['i', combiningDotAbove] else [asciiLowerChar c]

/-- Rust `str::to_lowercase`: the concatenation of the per-character
lowercase mappings.  Not byte-length-preserving: U+0130 (2 bytes) lowers to
`i` + U+0307 (3 bytes). -/
def strToLower (s : List Char) : List Char := (s.map rustLowerMapping).flatten

/-- Rust `str::ends_with` with a string pattern; `ends_with(c)` for a `char`
pattern is `endsWith s [c]`. -/
def endsWith (s pat : List Char) : Bool := pat.isSuffixOf s

/-- Rust byte slice `&s[..n]`: `some` of the first `n` bytes when `n` is a
character boundary not past the end, `none` (a Rust panic) otherwise. -/
def takeBytes : List Char → Nat → Option (List Char)
  | _, 0 => some []
  | [], _ + 1 => none
  | c :: cs, n + 1 =>
    if charBytes c ≤ n + 1 then (takeBytes cs (n + 1 - charBytes c)).map (c :: ·)
    else none

/-- Rust byte slice `&s[n..]`: drops the first `n` bytes when `n` is a
character boundary not past the end, `none` (a Rust panic) otherwise. -/
def dropBytes : List Char → Nat → Option (List Char)
  | s, 0 => some s
  | [], _ + 1 => none
  | c :: cs, n + 1 =>
    if charBytes c ≤ n + 1 then dropBytes cs (n + 1 - charBytes c)
    else none

/-- Rust byte slice `&s[i..j]`: `none` models every panic (`i > j`, `j` past
the end, or either end point off a character boundary). -/
def sliceBytes (s : List Char) (i j : Nat) : Option (List Char) :=
  (takeBytes s j).bind (fun t => dropBytes t i)

namespace TextUtils

/-- The body of the `for (i, ch) in input.chars().enumerate()` loop of
`TextUtils::to_snake_case` (src/utils/text.rs lines 19-28): before each
uppercase character at index `i > 0` an underscore is pushed, then the
character's lowercase image is pushed. -/
def snakeGo : Nat → List Char → List Char
  | _, [] => []
  | i, c :: cs =>
    (if decide (0 < i) && rustIsUppercase c then ['_'] else []) ++
      asciiLowerChar c :: snakeGo (i + 1) cs

/-- `TextUtils::to_snake_case` (src/utils/text.rs lines 19-28).
`CommandUtils::to_snake_case` (src/commands/mod.rs lines 95-104) is
character-for-character the same code. -/
def to_snake_case (input : List Char) : List Char := snakeGo 0 input

/-- Rust `str::split('_')`: the segments between underscores, in order;
`n` separators yield `n + 1` (possibly empty) segments. -/
def splitUnderscore : List Char → List (List Char)
  | [] => [[]]
  | c :: cs =>
    if c = '_' then [] :: splitUnderscore cs
    else
      match splitUnderscore cs with
      | [] => [[c]]
      | w :: ws => (c :: w) :: ws

/-- The per-word closure of `TextUtils::to_pascal_case`: uppercase the first
character (its collected uppercase mapping), keep the rest unchanged. -/
def capitalizeWord : List Char → List Char
  | [] => []
  | c :: cs => asciiUpperChar c :: cs

/-- `TextUtils::to_pascal_case` (src/utils/text.rs lines 31-42):
split on `'_'`, capitalize each word's first character, concatenate.
`CommandUtils::to_pascal_case` (src/commands/mod.rs lines 107-118) is
character-for-character the same code. -/
def to_pascal_case (input : List Char) : List Char :=
  ((splitUnderscore input).map capitalizeWord).flatten

/-- `TextUtils::to_camel_case` (src/utils/text.rs lines 45-52): PascalCase,
then lowercase the first character (this version uses `chars.as_str()`, no
byte slicing, so it is total). -/
def to_camel_case (input : List Char) : List Char :=
  match to_pascal_case input with
  | [] => []
  | c :: cs => asciiLowerChar c :: cs

/-- `TextUtils::to_kebab_case` (src/utils/text.rs lines 55-57):
snake case with every `'_'` replaced by `'-'`. -/
def to_kebab_case (input : List Char) : List Char :=
  (to_snake_case input).map (fun c => if c = '_' then '-' else c)

/-- `TextUtils::pluralize` (src/utils/text.rs lines 60-79).  The conditions
are checked on `lower = word.to_lowercase()`; the byte slices are taken from
the original `word`, so the result is `Option` (a `none` is a Rust panic). -/
def pluralize (word : List Char) : Option (List Char) :=
  if word = [] then some word
  else
    let lower := strToLower word
    if endsWith lower ['s'] || endsWith lower ['s', 'h'] || endsWith lower ['c', 'h'] ||
        endsWith lower ['x'] || endsWith lower ['z'] then
      some (word ++ ['e', 's'])
    else if endsWith lower ['y'] && !endsWith lower ['a', 'y'] && !endsWith lower ['e', 'y'] &&
        !endsWith lower ['i', 'y'] && !endsWith lower ['o', 'y'] && !endsWith lower ['u', 'y'] then
      (takeBytes word (byteLen word - 1)).map (· ++ ['i', 'e', 's'])
    else if endsWith lower ['f'] then
      (takeBytes word (byteLen word - 1)).map (· ++ ['v', 'e', 's'])
    else if endsWith lower ['f', 'e'] then
      (takeBytes word (byteLen word - 2)).map (· ++ ['v', 'e', 's'])
    else
      some (word ++ ['s'])

/-- `TextUtils::singularize` (src/utils/text.rs lines 82-110).  The conditions
are checked on `lower = word.to_lowercase()` but the slice indices come from
`word.len()` (bytes); slices of `lower` at those indices can miss a character
boundary, so the result is `Option` (a `none` is a Rust panic). -/
def singularize (word : List Char) : Option (List Char) :=
  if word = [] then some word
  else
    let lower := strToLower word
    let n := byteLen word
    if endsWith lower ['i', 'e', 's'] then
      (takeBytes word (n - 3)).map (· ++ ['y'])
    else if endsWith lower ['v', 'e', 's'] then
      if 4 < n then
        match sliceBytes lower (n - 4) (n - 3) with
        | none => none
        | some seg =>
          if seg = ['l'] then (takeBytes word (n - 3)).map (· ++ ['f'])
          else (takeBytes word (n - 3)).map (· ++ ['f', 'e'])
      else (takeBytes word (n - 3)).map (· ++ ['f', 'e'])
    else if endsWith lower ['e', 's'] && 2 < n then
      match sliceBytes lower (n - 3) (n - 2) with
      | none => none
      | some before_es =>
        if before_es = ['s'] || before_es = ['x'] || before_es = ['z'] then
          takeBytes word (n - 2)
        else if 3 < n then
          match sliceBytes lower (n - 4) (n - 2) with
          | none => none
          | some two =>
            if two = ['s', 'h'] || two = ['c', 'h'] then takeBytes word (n - 2)
            else takeBytes word (n - 1)
        else takeBytes word (n - 1)
    else if endsWith lower ['s'] && 1 < n then
      takeBytes word (n - 1)
    else
      some word

end TextUtils


namespace Generators

/-- `to_title_case` (src/generators/mod.rs lines 189-201): split on `'_'`,
capitalize each word's first character, join with a single space. -/
def to_title_case (input : List Char) : List Char :=
  List.intercalate [' '] ((TextUtils.splitUnderscore input).map TextUtils.capitalizeWord)

/-- `to_camel_case` (src/generators/mod.rs lines 174-181): PascalCase via
`CommandUtils::to_pascal_case`, then `first_char.to_lowercase()` concatenated
with the byte slice `&pascal[1..]` — which panics when the first character of
the PascalCase form occupies more than one byte, hence `Option`. -/
def to_camel_case (input : List Char) : Option (List Char) :=
  let pascal := TextUtils.to_pascal_case input
  match pascal with
  | [] => some pascal
  | first :: _ => (dropBytes pascal 1).map (fun rest => asciiLowerChar first :: rest)

/-- The private `pluralize` (src/generators/mod.rs lines 204-218): same rules
as `TextUtils::pluralize` but with the `y` rule checked first and no guard for
the empty string. -/
def pluralize (input : List Char) : Option (List Char) :=
  let lower := strToLower input
  if endsWith lower ['y'] && !endsWith lower ['a', 'y'] && !endsWith lower ['e', 'y'] &&
      !endsWith lower ['i', 'y'] && !endsWith lower ['o', 'y'] && !endsWith lower ['u', 'y'] then
    (takeBytes input (byteLen input - 1)).map (· ++ ['i', 'e', 's'])
  else if endsWith lower ['s'] || endsWith lower ['s', 'h'] || endsWith lower ['c', 'h'] ||
      endsWith lower ['x'] || endsWith lower ['z'] then
    some (input ++ ['e', 's'])
  else if endsWith lower ['f'] then
    (takeBytes input (byteLen input - 1)).map (· ++ ['v', 'e', 's'])
  else if endsWith lower ['f', 'e'] then
    (takeBytes input (byteLen input - 2)).map (· ++ ['v', 'e', 's'])
  else
    some (input ++ ['s'])

/-- The private `singularize` (src/generators/mod.rs lines 221-239): unlike
`TextUtils::singularize`, the `ves` stem check is by vowel (`aves`/`eves`/
`ives`/`oves` → `f`, otherwise `fe`), and all conditions are suffix tests on
`lower` with length guards on `input` (bytes). -/
def singularize (input : List Char) : Option (List Char) :=
  let lower := strToLower input
  let n := byteLen input
  if endsWith lower ['i', 'e', 's'] && 3 < n then
    (takeBytes input (n - 3)).map (· ++ ['y'])
  else if endsWith lower ['v', 'e', 's'] && 3 < n then
    if endsWith lower ['a', 'v', 'e', 's'] || endsWith lower ['e', 'v', 'e', 's'] ||
        endsWith lower ['i', 'v', 'e', 's'] || endsWith lower ['o', 'v', 'e', 's'] then
      (takeBytes input (n - 3)).map (· ++ ['f'])
    else
      (takeBytes input (n - 3)).map (· ++ ['f', 'e'])
  else if endsWith lower ['s', 'e', 's'] || endsWith lower ['s', 'h', 'e', 's'] ||
      endsWith lower ['c', 'h', 'e', 's'] || endsWith lower ['x', 'e', 's'] ||
      endsWith lower ['z', 'e', 's'] then
    takeBytes input (n - 2)
  else if endsWith lower ['s'] && 1 < n then
    takeBytes input (n - 1)
  else
    some input

end Generators

namespace Make

/-- The private `pluralize` (src/commands/make.rs lines 618-630), used to
derive migration table names: the suffix tests are on `word` itself (not its
lowercase form), and the `y` rule has no vowel check — every word ending in
`y` of byte length > 1 becomes `...ies`. -/
def pluralize (word : List Char) : Option (List Char) :=
  if endsWith word ['y'] && 1 < byteLen word then
    (takeBytes word (byteLen word - 1)).map (· ++ ['i', 'e', 's'])
  else if endsWith word ['s'] || endsWith word ['s', 'h'] || endsWith word ['c', 'h'] ||
      endsWith word ['x'] || endsWith word ['z'] then
    some (word ++ ['e', 's'])
  else if endsWith word ['f'] then
    (takeBytes word (byteLen word - 1)).map (· ++ ['v', 'e', 's'])
  else if endsWith word ['f', 'e'] then
    (takeBytes word (byteLen word - 2)).map (· ++ ['v', 'e', 's'])
  else
    some (word ++ ['s'])

end Make

/-- Specification-side reading of the spec's `toSnakeCase` word model, applied
to the characters after the first one: insert `'_'` before every uppercase
character, lowercase every character. -/
def snakeTail : List Char → List Char
  | [] => []
  | c :: cs =>
    (if rustIsUppercase c then ['_'] else []) ++ asciiLowerChar c :: snakeTail cs

/-- Amended description of `to_snake_case`: the first character is lowercased
with no underscore; before every later uppercase character an underscore is
inserted; underscores and hyphens are copied through unchanged (hyphens are
not converted to underscores). -/
def amendedSnake : List Char → List Char
  | [] => []
  | c :: cs => asciiLowerChar c :: snakeTail cs

/-- One-pass form of `to_pascal_case` used in proofs: the flag records
whether the next non-underscore character starts a word. -/
def pascalGo : Bool → List Char → List Char
  | _, [] => []
  | b, c :: cs =>
    if c = '_' then pascalGo true cs
    else if b then asciiUpperChar c :: pascalGo false cs
    else c :: pascalGo false cs

/-- The claim's ordered pluralization rule list (spec section 4, operation
`pluralize`): conditions on the lowercased word, substitution into the
original-cased word; rules: (1) s/sh/ch/x/z → append `es`; (2) `y` not after
a vowel → drop the `y`, append `ies`; (3) `fe` → drop `fe`, append `ves`;
(4) `f` (and not `fe`) → drop `f`, append `ves`; (5) otherwise append `s`. -/
def pluralizeRulesSpec (word : List Char) : List Char :=
  let lower := strToLower word
  if endsWith lower ['s'] || endsWith lower ['s', 'h'] || endsWith lower ['c', 'h'] ||
      endsWith lower ['x'] || endsWith lower ['z'] then
    word ++ ['e', 's']
  else if endsWith lower ['y'] && !endsWith lower ['a', 'y'] && !endsWith lower ['e', 'y'] &&
      !endsWith lower ['i', 'y'] && !endsWith lower ['o', 'y'] && !endsWith lower ['u', 'y'] then
    word.dropLast ++ ['i', 'e', 's']
  else if endsWith lower ['f', 'e'] then
    word.dropLast.dropLast ++ ['v', 'e', 's']
  else if endsWith lower ['f'] then
    word.dropLast ++ ['v', 'e', 's']
  else
    word ++ ['s']

/-- Is the character an explicit word-boundary character in the claimed
`toSnakeCase` word model (underscore or hyphen)? -/
def isBoundaryChar (c : Char) : Bool := c == '_' || c == '-'

/-- Word splitter following the words of claim C4: `cur` is the word in
progress, `prev` the previous character; a word ends at an underscore or
hyphen (the character is dropped) and before an uppercase character preceded
by a non-uppercase, non-boundary character. -/
def claim4SplitGo : List Char → Option Char → List Char → List (List Char)
  | cur, _, [] => [cur]
  | cur, prev, c :: cs =>
    if isBoundaryChar c then cur :: claim4SplitGo [] (some c) cs
    else if rustIsUppercase c &&
        (match prev with
         | none => false
         | some p => !(rustIsUppercase p || isBoundaryChar p)) then
      cur :: claim4SplitGo [c] (some c) cs
    else claim4SplitGo (cur ++ [c]) (some c) cs

/-- The words of an input under the claimed `toSnakeCase` word model
(empty fragments between adjacent boundaries are not words). -/
def claim4Split (s : List Char) : List (List Char) :=
  (claim4SplitGo [] none s).filter (fun w => !w.isEmpty)

/-- The `toSnakeCase` described by claim C4: split into words at transitions
into an uppercase letter preceded by a non-uppercase character, with
underscores and hyphens as explicit boundaries; join the words with `'_'`,
lowercasing every character. -/
def toSnakeCaseClaim4 (s : List Char) : List Char :=
  List.intercalate ['_'] ((claim4Split s).map (List.map asciiLowerChar))

/-- A snake_case identifier: ASCII lowercase letters, digits and underscores. -/
def isSnakeCaseStr (s : List Char) : Bool :=
  s.all (fun c => c.isLower || c.isDigit || c == '_')

/-- A PascalCase identifier: nonempty, ASCII uppercase first letter, then
ASCII letters and digits. -/
def isPascalCaseStr : List Char → Bool
  | [] => false
  | c :: cs => c.isUpper && cs.all (fun d => d.isAlphanum)

/-- A camelCase identifier: nonempty, ASCII lowercase first letter, then
ASCII letters and digits. -/
def isCamelCaseStr : List Char → Bool
  | [] => false
  | c :: cs => c.isLower && cs.all (fun d => d.isAlphanum)

/-- A kebab-case identifier: ASCII lowercase letters, digits and hyphens. -/
def isKebabCaseStr (s : List Char) : Bool :=
  s.all (fun c => c.isLower || c.isDigit || c == '-')

/-- An input already in one of the supported cases (spec section 3,
invariant): snake_case, PascalCase, camelCase or kebab-case. -/
def isSupportedCase (s : List Char) : Bool :=
  isSnakeCaseStr s || isPascalCaseStr s || isCamelCaseStr s || isKebabCaseStr s


/-! ### Character-level helper lemmas -/

theorem toNat_ofNat_small {n : Nat} (h : n < 55296) : (Char.ofNat n).toNat = n := by
  have hv : Nat.isValidChar n := Or.inl h
  rw [Char.ofNat, dif_pos hv]
  simp [Char.ofNatAux, Char.toNat, UInt32.toNat]

theorem isAsciiUpper_iff {c : Char} :
    isAsciiUpper c = true ↔ 65 ≤ c.toNat ∧ c.toNat ≤ 90 := by
  simp [isAsciiUpper]

theorem isAsciiLower_iff {c : Char} :
    isAsciiLower c = true ↔ 97 ≤ c.toNat ∧ c.toNat ≤ 122 := by
  simp [isAsciiLower]

theorem toNat_asciiLowerChar (c : Char) :
    (asciiLowerChar c).toNat = if isAsciiUpper c then c.toNat + 32 else c.toNat := by
  by_cases h : isAsciiUpper c = true
  · have hb := isAsciiUpper_iff.mp h
    simp [asciiLowerChar, h, toNat_ofNat_small (by omega : c.toNat + 32 < 55296)]
  · simp [asciiLowerChar, h]

theorem charBytes_asciiLowerChar (c : Char) : charBytes (asciiLowerChar c) = charBytes c := by
  by_cases h : isAsciiUpper c = true
  · have hb := isAsciiUpper_iff.mp h
    have ht := toNat_asciiLowerChar c
    rw [if_pos h] at ht
    unfold charBytes
    rw [ht, if_pos (show c.toNat + 32 < 0x80 by omega), if_pos (show c.toNat < 0x80 by omega)]
  · simp [asciiLowerChar, h]

theorem asciiLowerChar_of_not_upper {c : Char} (h : isAsciiUpper c = false) :
    asciiLowerChar c = c := by
  simp [asciiLowerChar, h]

theorem isAsciiUpper_asciiLowerChar (c : Char) : isAsciiUpper (asciiLowerChar c) = false := by
  by_cases h : isAsciiUpper c = true
  · have hb := isAsciiUpper_iff.mp h
    have ht := toNat_asciiLowerChar c
    rw [if_pos h] at ht
    simp only [isAsciiUpper, ht]
    simp
    omega
  · rw [asciiLowerChar_of_not_upper (by simpa using h)]
    simpa using h

theorem asciiLowerChar_idem (c : Char) :
    asciiLowerChar (asciiLowerChar c) = asciiLowerChar c :=
  asciiLowerChar_of_not_upper (isAsciiUpper_asciiLowerChar c)

theorem isAsciiUpper_of_rust {c : Char} (h : rustIsUppercase c = false) :
    isAsciiUpper c = false := by
  simp [rustIsUppercase] at h
  exact h.1

theorem asciiLowerChar_of_not_rust {c : Char} (h : rustIsUppercase c = false) :
    asciiLowerChar c = c :=
  asciiLowerChar_of_not_upper (isAsciiUpper_of_rust h)

theorem isAsciiLower_asciiLowerChar_of_upper {c : Char} (h : isAsciiUpper c = true) :
    isAsciiLower (asciiLowerChar c) = true := by
  have hb := isAsciiUpper_iff.mp h
  have ht := toNat_asciiLowerChar c
  rw [if_pos h] at ht
  simp only [isAsciiLower, ht]
  simp
  omega

theorem asciiUpperChar_asciiLowerChar (c : Char) :
    asciiUpperChar (asciiLowerChar c) = asciiUpperChar c := by
  by_cases h : isAsciiUpper c = true
  · have hb := isAsciiUpper_iff.mp h
    have ht := toNat_asciiLowerChar c
    rw [if_pos h] at ht
    have hlo := isAsciiLower_asciiLowerChar_of_upper h
    have hnotlo : isAsciiLower c = false := by
      simp only [isAsciiLower]
      simp
      omega
    rw [asciiUpperChar, if_pos hlo, ht, Nat.add_sub_cancel, Char.ofNat_toNat,
      asciiUpperChar, if_neg (by simp [hnotlo])]
  · rw [asciiLowerChar_of_not_upper (by simpa using h)]

theorem asciiUpperChar_of_rust {c : Char} (h : rustIsUppercase c = true) :
    asciiUpperChar c = c := by
  rcases (by simpa [rustIsUppercase] using h : isAsciiUpper c = true ∨ c = mathBoldCapitalA) with
    hu | hA
  · have hb := isAsciiUpper_iff.mp hu
    rw [asciiUpperChar, if_neg (fun hl => by have := isAsciiLower_iff.mp hl; omega)]
  · subst hA
    decide

theorem asciiLowerChar_eq_underscore {c : Char} (h : asciiLowerChar c = '_') : c = '_' := by
  by_cases hu : isAsciiUpper c = true
  · have hb := isAsciiUpper_iff.mp hu
    have ht := toNat_asciiLowerChar c
    rw [if_pos hu, h] at ht
    have h95 : ('_' : Char).toNat = 95 := by decide
    rw [h95] at ht
    omega
  · rwa [asciiLowerChar_of_not_upper (by simpa using hu)] at h

/-! ### Byte-length and byte-slicing lemmas -/

theorem charBytes_pos (c : Char) : 0 < charBytes c := by
  unfold charBytes
  split
  · omega
  split
  · omega
  split <;> omega

theorem byteLen_nil : byteLen [] = 0 := rfl

theorem byteLen_cons (c : Char) (s : List Char) :
    byteLen (c :: s) = charBytes c + byteLen s := by
  simp [byteLen]

theorem byteLen_append (a b : List Char) : byteLen (a ++ b) = byteLen a + byteLen b := by
  simp [byteLen]

theorem byteLen_pos {s : List Char} (h : s ≠ []) : 0 < byteLen s := by
  rcases s with _ | ⟨c, cs⟩
  · exact absurd rfl h
  · rw [byteLen_cons]
    have := charBytes_pos c
    omega

theorem length_le_byteLen (s : List Char) : s.length ≤ byteLen s := by
  induction s with
  | nil => simp [byteLen_nil]
  | cons c cs ih =>
    rw [byteLen_cons]
    have := charBytes_pos c
    simp only [List.length_cons]
    omega

theorem rustLowerMapping_of_ne {c : Char} (h : c ≠ latinCapitalIDot) :
    rustLowerMapping c = [asciiLowerChar c] := if_neg h

theorem strToLower_append (u v : List Char) :
    strToLower (u ++ v) = strToLower u ++ strToLower v := by
  simp [strToLower]

theorem strToLower_concat (u : List Char) (a : Char) :
    strToLower (u ++ [a]) = strToLower u ++ rustLowerMapping a := by
  rw [strToLower_append]
  simp [strToLower]

theorem takeBytes_zero (s : List Char) : takeBytes s 0 = some [] := by
  cases s <;> rfl

theorem dropBytes_zero (s : List Char) : dropBytes s 0 = some s := by
  cases s <;> rfl

theorem takeBytes_append (a b : List Char) : takeBytes (a ++ b) (byteLen a) = some a := by
  induction a with
  | nil => simp [byteLen_nil, takeBytes_zero]
  | cons c cs ih =>
    have hpos := charBytes_pos c
    rcases Nat.exists_eq_succ_of_ne_zero
        (show byteLen (c :: cs) ≠ 0 by rw [byteLen_cons]; omega) with ⟨k, hk⟩
    rw [hk]
    show takeBytes (c :: (cs ++ b)) (k + 1) = some (c :: cs)
    rw [byteLen_cons] at hk
    simp only [takeBytes]
    rw [if_pos (by omega), show k + 1 - charBytes c = byteLen cs by omega, ih]
    rfl

theorem dropBytes_append (a b : List Char) : dropBytes (a ++ b) (byteLen a) = some b := by
  induction a with
  | nil => simp [byteLen_nil, dropBytes_zero]
  | cons c cs ih =>
    have hpos := charBytes_pos c
    rcases Nat.exists_eq_succ_of_ne_zero
        (show byteLen (c :: cs) ≠ 0 by rw [byteLen_cons]; omega) with ⟨k, hk⟩
    rw [hk]
    show dropBytes (c :: (cs ++ b)) (k + 1) = some b
    rw [byteLen_cons] at hk
    simp only [dropBytes]
    rw [if_pos (by omega), show k + 1 - charBytes c = byteLen cs by omega, ih]

theorem sliceBytes_append (u p v : List Char) :
    sliceBytes (u ++ p ++ v) (byteLen u) (byteLen u + byteLen p) = some p := by
  unfold sliceBytes
  have h1 : takeBytes (u ++ p ++ v) (byteLen u + byteLen p) = some (u ++ p) := by
    have h := takeBytes_append (u ++ p) v
    rwa [byteLen_append] at h
  rw [h1]
  exact dropBytes_append u p

/-! ### Suffix lemmas -/

theorem endsWith_iff {s p : List Char} : endsWith s p = true ↔ ∃ t, s = t ++ p := by
  simp only [endsWith, List.isSuffixOf_iff_suffix]
  constructor
  · rintro ⟨t, ht⟩
    exact ⟨t, ht.symm⟩
  · rintro ⟨t, rfl⟩
    exact ⟨t, rfl⟩

theorem endsWith_concat (t p : List Char) : endsWith (t ++ p) p = true :=
  endsWith_iff.mpr ⟨t, rfl⟩

theorem getLast?_of_endsWith_one {s : List Char} {x : Char}
    (h : endsWith s [x] = true) : s.getLast? = some x := by
  rcases endsWith_iff.mp h with ⟨t, rfl⟩
  exact List.getLast?_concat t

theorem getLast?_of_endsWith_two {s : List Char} {x y : Char}
    (h : endsWith s [x, y] = true) : s.getLast? = some y := by
  rcases endsWith_iff.mp h with ⟨t, rfl⟩
  rw [show t ++ [x, y] = (t ++ [x]) ++ [y] by simp]
  exact List.getLast?_concat (t ++ [x])

theorem endsWith_same_length {u p q : List Char} (hl : p.length = q.length)
    (h : endsWith (u ++ p) q = true) : p = q := by
  rcases endsWith_iff.mp h with ⟨t, ht⟩
  exact (List.append_inj' ht hl).2

theorem exists_concat_one {w : List Char} (h : w ≠ []) : ∃ u a, w = u ++ [a] := by
  rcases List.eq_nil_or_concat w with rfl | ⟨u, a, rfl⟩
  · exact absurd rfl h
  · exact ⟨u, a, by simp [List.concat_eq_append]⟩

theorem exists_concat_two {w : List Char} (h : 2 ≤ w.length) : ∃ u a b, w = u ++ [a, b] := by
  rcases List.eq_nil_or_concat w with rfl | ⟨u1, b, rfl⟩
  · simp at h
  rcases List.eq_nil_or_concat u1 with rfl | ⟨u2, a, rfl⟩
  · simp [List.concat_eq_append] at h
  exact ⟨u2, a, b, by simp [List.concat_eq_append]⟩

theorem strToLower_suffix_one {w : List Char} {x : Char} (hx1 : charBytes x = 1)
    (hxd : x ≠ combiningDotAbove) (h : endsWith (strToLower w) [x] = true) :
    ∃ u a, w = u ++ [a] ∧ asciiLowerChar a = x ∧ charBytes a = 1 := by
  have hw : w ≠ [] := by
    rintro rfl
    rw [show strToLower ([] : List Char) = [] from rfl] at h
    simp [endsWith] at h
  rcases exists_concat_one hw with ⟨u, a, rfl⟩
  have hl := getLast?_of_endsWith_one h
  rw [strToLower_concat] at hl
  by_cases hA : a = latinCapitalIDot
  · subst hA
    rw [show rustLowerMapping latinCapitalIDot = ['i', combiningDotAbove] from rfl,
      List.getLast?_append] at hl
    simp at hl
    exact absurd hl.symm hxd
  · rw [rustLowerMapping_of_ne hA, List.getLast?_append] at hl
    simp at hl
    exact ⟨u, a, rfl, hl, by rw [← charBytes_asciiLowerChar a, hl, hx1]⟩

theorem strToLower_suffix_two {w : List Char} {x y : Char}
    (hx1 : charBytes x = 1) (hy1 : charBytes y = 1)
    (hxd : x ≠ combiningDotAbove) (hyd : y ≠ combiningDotAbove)
    (h : endsWith (strToLower w) [x, y] = true) :
    ∃ u a b, w = u ++ [a, b] ∧ asciiLowerChar a = x ∧ asciiLowerChar b = y ∧
      charBytes a = 1 ∧ charBytes b = 1 := by
  have hy : endsWith (strToLower w) [y] = true := by
    rcases endsWith_iff.mp h with ⟨t, ht⟩
    exact endsWith_iff.mpr ⟨t ++ [x], by rw [ht]; simp⟩
  rcases strToLower_suffix_one hy1 hyd hy with ⟨u', b, rfl, hb, hb1⟩
  have hbne : b ≠ latinCapitalIDot := by
    rintro rfl
    rw [show asciiLowerChar latinCapitalIDot = latinCapitalIDot from by decide] at hb
    rw [← hb] at hy1
    exact absurd hy1 (by decide)
  rw [strToLower_concat, rustLowerMapping_of_ne hbne] at h
  rcases endsWith_iff.mp h with ⟨t, ht⟩
  rw [show t ++ [x, y] = (t ++ [x]) ++ [y] by simp] at ht
  have h2 := List.append_inj' ht (by simp)
  have hx : endsWith (strToLower u') [x] = true := endsWith_iff.mpr ⟨t, h2.1⟩
  rcases strToLower_suffix_one hx1 hxd hx with ⟨u, a, rfl, ha, ha1⟩
  exact ⟨u, a, b, by simp, ha, hb, ha1, hb1⟩

/-! ### Snake-case structure lemmas -/

theorem snakeGo_pos (cs : List Char) (i : Nat) (h : 0 < i) :
    TextUtils.snakeGo i cs = snakeTail cs := by
  induction cs generalizing i with
  | nil => rfl
  | cons c cs ih =>
    simp only [TextUtils.snakeGo, snakeTail, decide_eq_true h, Bool.true_and,
      ih (i + 1) (by omega)]

theorem to_snake_eq_amended (s : List Char) : TextUtils.to_snake_case s = amendedSnake s := by
  cases s with
  | nil => rfl
  | cons c cs =>
    simp only [TextUtils.to_snake_case, TextUtils.snakeGo, amendedSnake,
      snakeGo_pos cs 1 (by omega)]
    rfl

theorem snakeTail_append (u v : List Char) : snakeTail (u ++ v) = snakeTail u ++ snakeTail v := by
  induction u with
  | nil => rfl
  | cons c cs ih =>
    simp only [List.cons_append, snakeTail]
    rw [show cs.append v = cs ++ v from rfl, ih]
    simp [List.append_assoc]

theorem mem_snakeTail {s : List Char} {d : Char} (hd : d ∈ snakeTail s) :
    d = '_' ∨ ∃ c ∈ s, d = asciiLowerChar c := by
  induction s with
  | nil => simp [snakeTail] at hd
  | cons c cs ih =>
    simp only [snakeTail] at hd
    rcases List.mem_append.mp hd with h1 | h2
    · by_cases hu : rustIsUppercase c = true
      · rw [if_pos hu] at h1
        simp at h1
        exact Or.inl h1
      · rw [if_neg hu] at h1
        simp at h1
    · rcases List.mem_cons.mp h2 with h3 | h4
      · exact Or.inr ⟨c, by simp, h3⟩
      · rcases ih h4 with h5 | ⟨e, he, hde⟩
        · exact Or.inl h5
        · exact Or.inr ⟨e, by simp [he], hde⟩

theorem snakeTail_id : ∀ s : List Char, (∀ d ∈ s, rustIsUppercase d = false) →
    snakeTail s = s
  | [], _ => rfl
  | c :: cs, h => by
    have hc := h c (List.mem_cons_self c cs)
    have hcs := fun d hd => h d (List.mem_cons_of_mem c hd)
    simp only [snakeTail]
    rw [if_neg (by simp [hc]), asciiLowerChar_of_not_rust hc, snakeTail_id cs hcs]
    simp

theorem amendedSnake_id {s : List Char} (h : ∀ d ∈ s, rustIsUppercase d = false) :
    amendedSnake s = s := by
  cases s with
  | nil => rfl
  | cons c cs =>
    have hc := h c (List.mem_cons_self c cs)
    have hcs := fun d hd => h d (List.mem_cons_of_mem c hd)
    simp only [amendedSnake]
    rw [asciiLowerChar_of_not_rust hc, snakeTail_id cs hcs]

theorem mem_amendedSnake {s : List Char} {d : Char} (hd : d ∈ amendedSnake s) :
    d = '_' ∨ ∃ c ∈ s, d = asciiLowerChar c := by
  cases s with
  | nil => simp [amendedSnake] at hd
  | cons c cs =>
    rcases List.mem_cons.mp hd with h1 | h2
    · exact Or.inr ⟨c, by simp, h1⟩
    · rcases mem_snakeTail h2 with h3 | ⟨e, he, hde⟩
      · exact Or.inl h3
      · exact Or.inr ⟨e, by simp [he], hde⟩

/-! ### Pascal-case structure lemmas -/

theorem splitUnderscore_cons (s : List Char) :
    ∃ w ws, TextUtils.splitUnderscore s = w :: ws := by
  induction s with
  | nil => exact ⟨[], [], rfl⟩
  | cons c cs ih =>
    rcases ih with ⟨w, ws, hw⟩
    by_cases hc : c = '_'
    · exact ⟨[], TextUtils.splitUnderscore cs, by simp [TextUtils.splitUnderscore, hc]⟩
    · exact ⟨c :: w, ws, by simp [TextUtils.splitUnderscore, hc, hw]⟩

theorem pascal_bridge : ∀ s : List Char,
    TextUtils.to_pascal_case s = pascalGo true s ∧
    (∀ w ws, TextUtils.splitUnderscore s = w :: ws →
      w ++ (ws.map TextUtils.capitalizeWord).flatten = pascalGo false s)
  | [] => by
    constructor
    · rfl
    · intro w ws h
      simp only [TextUtils.splitUnderscore] at h
      rcases List.cons_eq_cons.mp h.symm with ⟨rfl, rfl⟩
      rfl
  | c :: cs => by
    obtain ⟨ih1, ih2⟩ := pascal_bridge cs
    by_cases hc : c = '_'
    · subst hc
      have hsplit : TextUtils.splitUnderscore ('_' :: cs) = [] :: TextUtils.splitUnderscore cs := by
        simp [TextUtils.splitUnderscore]
      constructor
      · rw [TextUtils.to_pascal_case, hsplit]
        simp only [List.map_cons, List.flatten_cons, TextUtils.capitalizeWord, List.nil_append]
        rw [show pascalGo true ('_' :: cs) = pascalGo true cs by simp [pascalGo]]
        exact ih1
      · intro w ws h
        rw [hsplit] at h
        rcases List.cons_eq_cons.mp h.symm with ⟨rfl, rfl⟩
        rw [show pascalGo false ('_' :: cs) = pascalGo true cs by simp [pascalGo]]
        simpa using ih1
    · rcases splitUnderscore_cons cs with ⟨w, ws, hw⟩
      have hsplit : TextUtils.splitUnderscore (c :: cs) = (c :: w) :: ws := by
        simp [TextUtils.splitUnderscore, hc, hw]
      constructor
      · rw [TextUtils.to_pascal_case, hsplit]
        simp only [List.map_cons, List.flatten_cons, TextUtils.capitalizeWord]
        rw [show pascalGo true (c :: cs) = asciiUpperChar c :: pascalGo false cs by
          simp [pascalGo, hc]]
        rw [List.cons_append]
        exact congrArg _ (ih2 w ws hw)
      · intro w' ws' h'
        rw [hsplit] at h'
        obtain ⟨h1', h2'⟩ := List.cons_eq_cons.mp h'
        rw [← h1', ← h2']
        rw [show pascalGo false (c :: cs) = c :: pascalGo false cs by simp [pascalGo, hc]]
        rw [List.cons_append]
        exact congrArg _ (ih2 w ws hw)

theorem rustIsUppercase_underscore : rustIsUppercase '_' = false := by decide

theorem asciiLowerChar_underscore : asciiLowerChar '_' = '_' := by decide

theorem pascalGo_snakeTail : ∀ s : List Char,
    pascalGo true (snakeTail s) = pascalGo true s ∧
    pascalGo false (snakeTail s) = pascalGo false s
  | [] => ⟨rfl, rfl⟩
  | c :: cs => by
    obtain ⟨ih1, ih2⟩ := pascalGo_snakeTail cs
    by_cases hup : rustIsUppercase c = true
    · have hcne : c ≠ '_' := by
        rintro rfl
        rw [rustIsUppercase_underscore] at hup
        exact Bool.false_ne_true hup
      have hlne : asciiLowerChar c ≠ '_' := fun h => hcne (asciiLowerChar_eq_underscore h)
      have hku : snakeTail (c :: cs) = '_' :: asciiLowerChar c :: snakeTail cs := by
        simp [snakeTail, hup]
      have hstep : ∀ b : Bool, pascalGo b (snakeTail (c :: cs)) =
          asciiUpperChar c :: pascalGo false (snakeTail cs) := by
        intro b
        rw [hku]
        rw [show pascalGo b ('_' :: asciiLowerChar c :: snakeTail cs) =
          pascalGo true (asciiLowerChar c :: snakeTail cs) by simp [pascalGo]]
        rw [show pascalGo true (asciiLowerChar c :: snakeTail cs) =
          asciiUpperChar (asciiLowerChar c) :: pascalGo false (snakeTail cs) by
            simp [pascalGo, hlne]]
        rw [asciiUpperChar_asciiLowerChar]
      constructor
      · rw [hstep true, ih2]
        rw [show pascalGo true (c :: cs) = asciiUpperChar c :: pascalGo false cs by
          simp [pascalGo, hcne]]
      · rw [hstep false, ih2]
        rw [show pascalGo false (c :: cs) = c :: pascalGo false cs by simp [pascalGo, hcne]]
        rw [asciiUpperChar_of_rust hup]
    · have hup' : rustIsUppercase c = false := by simpa using hup
      have hlow : asciiLowerChar c = c := asciiLowerChar_of_not_rust hup'
      have hku : snakeTail (c :: cs) = c :: snakeTail cs := by
        simp [snakeTail, hup', hlow]
      by_cases hc : c = '_'
      · subst hc
        constructor
        · rw [hku]
          rw [show ∀ t, pascalGo true ('_' :: t) = pascalGo true t by intro t; simp [pascalGo]]
          rw [show ∀ t, pascalGo true ('_' :: t) = pascalGo true t by intro t; simp [pascalGo]]
          exact ih1
        · rw [hku]
          rw [show ∀ t, pascalGo false ('_' :: t) = pascalGo true t by intro t; simp [pascalGo]]
          rw [show ∀ t, pascalGo false ('_' :: t) = pascalGo true t by intro t; simp [pascalGo]]
          exact ih1
      · constructor
        · rw [hku]
          rw [show ∀ t, pascalGo true (c :: t) = asciiUpperChar c :: pascalGo false t by
            intro t; simp [pascalGo, hc]]
          rw [show ∀ t, pascalGo true (c :: t) = asciiUpperChar c :: pascalGo false t by
            intro t; simp [pascalGo, hc]]
          rw [ih2]
        · rw [hku]
          rw [show ∀ t, pascalGo false (c :: t) = c :: pascalGo false t by
            intro t; simp [pascalGo, hc]]
          rw [show ∀ t, pascalGo false (c :: t) = c :: pascalGo false t by
            intro t; simp [pascalGo, hc]]
          rw [ih2]

theorem pascal_snake_all (x : List Char) :
    TextUtils.to_pascal_case (TextUtils.to_snake_case x) = TextUtils.to_pascal_case x := by
  rw [to_snake_eq_amended, (pascal_bridge _).1, (pascal_bridge x).1]
  cases x with
  | nil => rfl
  | cons c cs =>
    simp only [amendedSnake]
    by_cases hc : c = '_'
    · subst hc
      rw [asciiLowerChar_underscore]
      rw [show ∀ t, pascalGo true ('_' :: t) = pascalGo true t by intro t; simp [pascalGo]]
      rw [show ∀ t, pascalGo true ('_' :: t) = pascalGo true t by intro t; simp [pascalGo]]
      exact (pascalGo_snakeTail cs).1
    · have hlne : asciiLowerChar c ≠ '_' := fun h => hc (asciiLowerChar_eq_underscore h)
      rw [show pascalGo true (asciiLowerChar c :: snakeTail cs) =
        asciiUpperChar (asciiLowerChar c) :: pascalGo false (snakeTail cs) by
          simp [pascalGo, hlne]]
      rw [show pascalGo true (c :: cs) = asciiUpperChar c :: pascalGo false cs by
        simp [pascalGo, hc]]
      rw [asciiUpperChar_asciiLowerChar, (pascalGo_snakeTail cs).2]

/-! ### Pluralize rule-list equivalence -/

theorem charBytes_lower_target {a x : Char} (h : asciiLowerChar a = x)
    (hx : charBytes x = 1) : charBytes a = 1 := by
  rw [← charBytes_asciiLowerChar a, h, hx]

theorem takeBytes_pred {u : List Char} {a : Char} (ha : charBytes a = 1) :
    takeBytes (u ++ [a]) (byteLen (u ++ [a]) - 1) = some u := by
  rw [byteLen_append, byteLen_cons, byteLen_nil, ha, Nat.add_sub_cancel]
  exact takeBytes_append u [a]

theorem takeBytes_pred2 {u : List Char} {a b : Char} (ha : charBytes a = 1)
    (hb : charBytes b = 1) :
    takeBytes (u ++ [a, b]) (byteLen (u ++ [a, b]) - 2) = some u := by
  have h : byteLen (u ++ [a, b]) = byteLen u + 2 := by
    rw [byteLen_append, byteLen_cons, byteLen_cons, byteLen_nil, ha, hb]
  rw [h, Nat.add_sub_cancel]
  exact takeBytes_append u [a, b]

theorem dropLast_concat_two (u : List Char) (a b : Char) :
    (u ++ [a, b]).dropLast.dropLast = u := by
  rw [show u ++ [a, b] = (u ++ [a]) ++ [b] by simp, List.dropLast_concat, List.dropLast_concat]

theorem endsWith_one_ne_two {s : List Char} {x y z : Char} (hxz : x ≠ z)
    (h1 : endsWith s [x] = true) : endsWith s [y, z] = false := by
  cases h2 : endsWith s [y, z] with
  | false => rfl
  | true =>
    have l1 := getLast?_of_endsWith_one h1
    have l2 := getLast?_of_endsWith_two h2
    rw [l1] at l2
    exact absurd (Option.some.inj l2) hxz

theorem endsWith_two_ne_one {s : List Char} {x y z : Char} (hyz : y ≠ z)
    (h1 : endsWith s [x, y] = true) : endsWith s [z] = false := by
  cases h2 : endsWith s [z] with
  | false => rfl
  | true =>
    have l1 := getLast?_of_endsWith_two h1
    have l2 := getLast?_of_endsWith_one h2
    rw [l1] at l2
    exact absurd (Option.some.inj l2) hyz

theorem textPluralize_eq_spec (w : List Char) (hw : w ≠ []) :
    TextUtils.pluralize w = some (pluralizeRulesSpec w) := by
  simp only [TextUtils.pluralize, pluralizeRulesSpec]
  rw [if_neg hw]
  by_cases h1 : (endsWith (strToLower w) ['s'] || endsWith (strToLower w) ['s', 'h'] ||
      endsWith (strToLower w) ['c', 'h'] || endsWith (strToLower w) ['x'] ||
      endsWith (strToLower w) ['z']) = true
  · rw [if_pos h1, if_pos h1]
  · rw [if_neg h1, if_neg h1]
    by_cases h2 : (endsWith (strToLower w) ['y'] && !endsWith (strToLower w) ['a', 'y'] &&
        !endsWith (strToLower w) ['e', 'y'] && !endsWith (strToLower w) ['i', 'y'] &&
        !endsWith (strToLower w) ['o', 'y'] && !endsWith (strToLower w) ['u', 'y']) = true
    · rw [if_pos h2, if_pos h2]
      have hy : endsWith (strToLower w) ['y'] = true := by
        simp only [Bool.and_eq_true] at h2
        exact h2.1.1.1.1.1
      rcases strToLower_suffix_one (by decide) (by decide) hy with ⟨u, a, rfl, ha, ha1⟩
      rw [takeBytes_pred ha1, List.dropLast_concat]
      rfl
    · rw [if_neg h2, if_neg h2]
      by_cases hf : endsWith (strToLower w) ['f'] = true
      · have hfe : endsWith (strToLower w) ['f', 'e'] = false :=
          endsWith_one_ne_two (by decide) hf
        rw [if_pos hf, if_neg (by simp [hfe]), if_pos hf]
        rcases strToLower_suffix_one (by decide) (by decide) hf with ⟨u, a, rfl, ha, ha1⟩
        rw [takeBytes_pred ha1, List.dropLast_concat]
        rfl
      · rw [if_neg hf]
        by_cases hfe : endsWith (strToLower w) ['f', 'e'] = true
        · rw [if_pos hfe, if_pos hfe]
          rcases strToLower_suffix_two (by decide) (by decide) (by decide) (by decide) hfe with ⟨u, a, b, rfl, ha, hb, ha1, hb1⟩
          rw [takeBytes_pred2 ha1 hb1, dropLast_concat_two]
          rfl
        · rw [if_neg hfe, if_neg hfe, if_neg hf]

theorem generatorsPluralize_eq_spec (w : List Char) :
    Generators.pluralize w = some (pluralizeRulesSpec w) := by
  simp only [Generators.pluralize, pluralizeRulesSpec]
  by_cases h2 : (endsWith (strToLower w) ['y'] && !endsWith (strToLower w) ['a', 'y'] &&
      !endsWith (strToLower w) ['e', 'y'] && !endsWith (strToLower w) ['i', 'y'] &&
      !endsWith (strToLower w) ['o', 'y'] && !endsWith (strToLower w) ['u', 'y']) = true
  · have hy : endsWith (strToLower w) ['y'] = true := by
      simp only [Bool.and_eq_true] at h2
      exact h2.1.1.1.1.1
    have hlast := getLast?_of_endsWith_one hy
    have h1 : (endsWith (strToLower w) ['s'] || endsWith (strToLower w) ['s', 'h'] ||
        endsWith (strToLower w) ['c', 'h'] || endsWith (strToLower w) ['x'] ||
        endsWith (strToLower w) ['z']) = false := by
      simp only [Bool.or_eq_false_iff]
      refine ⟨⟨⟨⟨?_, ?_⟩, ?_⟩, ?_⟩, ?_⟩
      · cases hx : endsWith (strToLower w) ['s'] with
        | false => rfl
        | true =>
          have := getLast?_of_endsWith_one hx
          rw [hlast] at this
          exact absurd (Option.some.inj this) (by decide)
      · cases hx : endsWith (strToLower w) ['s', 'h'] with
        | false => rfl
        | true =>
          have := getLast?_of_endsWith_two hx
          rw [hlast] at this
          exact absurd (Option.some.inj this) (by decide)
      · cases hx : endsWith (strToLower w) ['c', 'h'] with
        | false => rfl
        | true =>
          have := getLast?_of_endsWith_two hx
          rw [hlast] at this
          exact absurd (Option.some.inj this) (by decide)
      · cases hx : endsWith (strToLower w) ['x'] with
        | false => rfl
        | true =>
          have := getLast?_of_endsWith_one hx
          rw [hlast] at this
          exact absurd (Option.some.inj this) (by decide)
      · cases hx : endsWith (strToLower w) ['z'] with
        | false => rfl
        | true =>
          have := getLast?_of_endsWith_one hx
          rw [hlast] at this
          exact absurd (Option.some.inj this) (by decide)
    rw [if_pos h2, if_neg (by simp [h1]), if_pos h2]
    rcases strToLower_suffix_one (by decide) (by decide) hy with ⟨u, a, rfl, ha, ha1⟩
    rw [takeBytes_pred ha1, List.dropLast_concat]
    rfl
  · rw [if_neg h2]
    by_cases h1 : (endsWith (strToLower w) ['s'] || endsWith (strToLower w) ['s', 'h'] ||
        endsWith (strToLower w) ['c', 'h'] || endsWith (strToLower w) ['x'] ||
        endsWith (strToLower w) ['z']) = true
    · rw [if_pos h1, if_pos h1]
    · rw [if_neg h1, if_neg h1, if_neg h2]
      by_cases hf : endsWith (strToLower w) ['f'] = true
      · have hfe : endsWith (strToLower w) ['f', 'e'] = false :=
          endsWith_one_ne_two (by decide) hf
        rw [if_pos hf, if_neg (by simp [hfe]), if_pos hf]
        rcases strToLower_suffix_one (by decide) (by decide) hf with ⟨u, a, rfl, ha, ha1⟩
        rw [takeBytes_pred ha1, List.dropLast_concat]
        rfl
      · rw [if_neg hf]
        by_cases hfe : endsWith (strToLower w) ['f', 'e'] = true
        · rw [if_pos hfe, if_pos hfe]
          rcases strToLower_suffix_two (by decide) (by decide) (by decide) (by decide) hfe with ⟨u, a, b, rfl, ha, hb, ha1, hb1⟩
          rw [takeBytes_pred2 ha1 hb1, dropLast_concat_two]
          rfl
        · rw [if_neg hfe, if_neg hfe, if_neg hf]

/-! ### Round-trip lemmas for pluralize rule 1 -/

theorem endsWith_xes_false {t : List Char} {c x : Char} (hcx : c ≠ x) :
    endsWith ((t ++ [c]) ++ ['e', 's']) [x, 'e', 's'] = false := by
  cases hx : endsWith ((t ++ [c]) ++ ['e', 's']) [x, 'e', 's'] with
  | false => rfl
  | true =>
    have hx' : endsWith (t ++ [c, 'e', 's']) [x, 'e', 's'] = true := by
      rw [show t ++ [c, 'e', 's'] = (t ++ [c]) ++ ['e', 's'] by simp]
      exact hx
    have h2 := endsWith_same_length (by simp) hx'
    exact absurd (List.cons_eq_cons.mp h2).1 hcx

theorem roundtrip_single {w t : List Char} {c : Char} (hlw : strToLower w = t ++ [c])
    (hbl : byteLen (strToLower w) = byteLen w)
    (hc1 : charBytes c = 1) (hne_i : c ≠ 'i') (hne_v : c ≠ 'v')
    (hsel : c = 's' ∨ c = 'x' ∨ c = 'z') :
    TextUtils.singularize (w ++ ['e', 's']) = some w := by
  have hw : w ≠ [] := by
    rintro rfl
    exact absurd hlw.symm (by simp [strToLower])
  have hv : w ++ ['e', 's'] ≠ [] := by simp
  have hlow : strToLower (w ++ ['e', 's']) = (t ++ [c]) ++ ['e', 's'] := by
    rw [strToLower_append, hlw, show strToLower ['e', 's'] = ['e', 's'] by decide]
  have hbt : byteLen (t ++ [c]) = byteLen t + 1 := by
    rw [byteLen_append, byteLen_cons, byteLen_nil, hc1]
  have hbw : byteLen w = byteLen t + 1 := by
    have hb := hbl
    rw [hlw, hbt] at hb
    omega
  have hbv : byteLen (w ++ ['e', 's']) = byteLen t + 3 := by
    rw [byteLen_append, hbw, show byteLen ['e', 's'] = 2 by decide]
  simp only [TextUtils.singularize]
  rw [if_neg hv, hlow, hbv]
  rw [endsWith_xes_false hne_i, if_neg (by simp)]
  rw [endsWith_xes_false hne_v, if_neg (by simp)]
  rw [if_pos (show (endsWith ((t ++ [c]) ++ ['e', 's']) ['e', 's'] &&
      decide (2 < byteLen t + 3)) = true by
    rw [endsWith_concat]
    simp only [Bool.true_and, decide_eq_true_eq]
    omega)]
  have hslice : sliceBytes ((t ++ [c]) ++ ['e', 's']) (byteLen t + 3 - 3) (byteLen t + 3 - 2) =
      some [c] := by
    rw [show byteLen t + 3 - 3 = byteLen t by omega,
      show byteLen t + 3 - 2 = byteLen t + byteLen [c] by
        rw [byteLen_cons, byteLen_nil, hc1]; omega]
    exact sliceBytes_append t [c] ['e', 's']
  rw [hslice]
  split
  next heq => exact absurd heq (by simp)
  next before_es heq =>
    obtain rfl : before_es = [c] := (Option.some.inj heq).symm
    rw [if_pos (show (decide ([c] = ['s']) || decide ([c] = ['x']) ||
        decide ([c] = ['z'])) = true by rcases hsel with rfl | rfl | rfl <;> decide)]
    rw [show byteLen t + 3 - 2 = byteLen w by omega, takeBytes_append]

theorem roundtrip_h {w t : List Char} {a : Char} (hlw : strToLower w = t ++ [a, 'h'])
    (hbl : byteLen (strToLower w) = byteLen w)
    (ha1 : charBytes a = 1) (hsel : a = 's' ∨ a = 'c') :
    TextUtils.singularize (w ++ ['e', 's']) = some w := by
  have hw : w ≠ [] := by
    rintro rfl
    exact absurd hlw.symm (by simp [strToLower])
  have hv : w ++ ['e', 's'] ≠ [] := by simp
  have hlow : strToLower (w ++ ['e', 's']) = (t ++ [a, 'h']) ++ ['e', 's'] := by
    rw [strToLower_append, hlw, show strToLower ['e', 's'] = ['e', 's'] by decide]
  have hbt : byteLen (t ++ [a, 'h']) = byteLen t + 2 := by
    rw [byteLen_append, byteLen_cons, byteLen_cons, byteLen_nil, ha1,
      show charBytes 'h' = 1 by decide]
  have hbw : byteLen w = byteLen t + 2 := by
    have hb := hbl
    rw [hlw, hbt] at hb
    omega
  have hbv : byteLen (w ++ ['e', 's']) = byteLen t + 4 := by
    rw [byteLen_append, hbw, show byteLen ['e', 's'] = 2 by decide]
  have hshape : (t ++ [a, 'h']) ++ ['e', 's'] = ((t ++ [a]) ++ ['h']) ++ ['e', 's'] := by simp
  simp only [TextUtils.singularize]
  rw [if_neg hv, hlow, hbv]
  rw [show endsWith ((t ++ [a, 'h']) ++ ['e', 's']) ['i', 'e', 's'] = false by
    rw [hshape]; exact endsWith_xes_false (by decide), if_neg (by simp)]
  rw [show endsWith ((t ++ [a, 'h']) ++ ['e', 's']) ['v', 'e', 's'] = false by
    rw [hshape]; exact endsWith_xes_false (by decide), if_neg (by simp)]
  rw [if_pos (show (endsWith ((t ++ [a, 'h']) ++ ['e', 's']) ['e', 's'] &&
      decide (2 < byteLen t + 4)) = true by
    rw [endsWith_concat]
    simp only [Bool.true_and, decide_eq_true_eq]
    omega)]
  have hslice : sliceBytes ((t ++ [a, 'h']) ++ ['e', 's']) (byteLen t + 4 - 3)
      (byteLen t + 4 - 2) = some ['h'] := by
    rw [hshape, show byteLen t + 4 - 3 = byteLen (t ++ [a]) by
        rw [byteLen_append, byteLen_cons, byteLen_nil, ha1]; omega,
      show byteLen t + 4 - 2 = byteLen (t ++ [a]) + byteLen ['h'] by
        rw [byteLen_append, byteLen_cons, byteLen_nil, ha1,
          show byteLen ['h'] = 1 by decide]
        omega]
    exact sliceBytes_append (t ++ [a]) ['h'] ['e', 's']
  rw [hslice]
  split
  next heq => exact absurd heq (by simp)
  next before_es heq =>
    obtain rfl : before_es = ['h'] := (Option.some.inj heq).symm
    rw [if_neg (by decide)]
    rw [if_pos (show 3 < byteLen t + 4 by omega)]
    have hslice2 : sliceBytes ((t ++ [a, 'h']) ++ ['e', 's']) (byteLen t + 4 - 4)
        (byteLen t + 4 - 2) = some [a, 'h'] := by
      rw [show byteLen t + 4 - 4 = byteLen t by omega,
        show byteLen t + 4 - 2 = byteLen t + byteLen [a, 'h'] by
          rw [byteLen_cons, byteLen_cons, byteLen_nil, ha1,
            show charBytes 'h' = 1 by decide]
          omega]
      exact sliceBytes_append t [a, 'h'] ['e', 's']
    rw [hslice2]
    split
    next heq2 => exact absurd heq2 (by simp)
    next two heq2 =>
      obtain rfl : two = [a, 'h'] := (Option.some.inj heq2).symm
      rw [if_pos (show (decide ([a, 'h'] = ['s', 'h']) ||
          decide ([a, 'h'] = ['c', 'h'])) = true by rcases hsel with rfl | rfl <;> decide)]
      rw [show byteLen t + 4 - 2 = byteLen w by omega, takeBytes_append]

theorem pluralize_singularize_rule1 (w : List Char)
    (h : (endsWith (strToLower w) ['s'] || endsWith (strToLower w) ['s', 'h'] ||
        endsWith (strToLower w) ['c', 'h'] || endsWith (strToLower w) ['x'] ||
        endsWith (strToLower w) ['z']) = true)
    (hbl : byteLen (strToLower w) = byteLen w) :
    (TextUtils.pluralize w).bind TextUtils.singularize = some w := by
  have hw : w ≠ [] := by
    rintro rfl
    exact absurd h (by decide)
  have hplural : TextUtils.pluralize w = some (w ++ ['e', 's']) := by
    simp only [TextUtils.pluralize]
    rw [if_neg hw, if_pos h]
  rw [hplural]
  show TextUtils.singularize (w ++ ['e', 's']) = some w
  simp only [Bool.or_eq_true] at h
  rcases h with ((((hs | hsh) | hch) | hx) | hz)
  · rcases endsWith_iff.mp hs with ⟨t, ht⟩
    exact roundtrip_single ht hbl (by decide) (by decide) (by decide) (Or.inl rfl)
  · rcases endsWith_iff.mp hsh with ⟨t, ht⟩
    exact roundtrip_h ht hbl (by decide) (Or.inl rfl)
  · rcases endsWith_iff.mp hch with ⟨t, ht⟩
    exact roundtrip_h ht hbl (by decide) (Or.inr rfl)
  · rcases endsWith_iff.mp hx with ⟨t, ht⟩
    exact roundtrip_single ht hbl (by decide) (by decide) (by decide) (Or.inr (Or.inl rfl))
  · rcases endsWith_iff.mp hz with ⟨t, ht⟩
    exact roundtrip_single ht hbl (by decide) (by decide) (by decide) (Or.inr (Or.inr rfl))

theorem snake_insert (l1 l2 : List Char) (c : Char) (h1 : l1 ≠ [])
    (hup : rustIsUppercase c = true) :
    TextUtils.to_snake_case (l1 ++ c :: l2) =
      TextUtils.to_snake_case l1 ++ '_' :: asciiLowerChar c :: snakeTail l2 := by
  rcases l1 with _ | ⟨a, as⟩
  · exact absurd rfl h1
  rw [to_snake_eq_amended, to_snake_eq_amended]
  simp only [List.cons_append, amendedSnake]
  rw [snakeTail_append]
  rw [show snakeTail (c :: l2) = '_' :: asciiLowerChar c :: snakeTail l2 by
    simp [snakeTail, hup]]

/-! ### Claim theorems -/

/-- Claim C1: the spec says every engine operation is total — never panics —
on any string, including non-ASCII ones.  The code violates this:
`TextUtils::singularize("éves")` takes the byte slice `&lower[1..2]`, whose
start falls inside the two-byte character `é`, and panics; likewise the
generators' `to_camel_case` slices `&pascal[1..]` inside a multibyte first
character.  In the model a panic is `none`. -/
theorem singularize_panics_on_multibyte :
    TextUtils.singularize ("éves".toList) = none ∧
    Generators.to_camel_case ("日x".toList) = none := by decide

/-- Claim C2: the spec (and the repository's own unit test
`test_singularize`, src/utils/text.rs line 198) says
`singularize("leaves") == "leave"`.  The code disagrees with its own test:
the `'l'` check reads the character before `"ves"` (an `'a'` in `"leaves"`),
so `TextUtils::singularize` returns `"leafe"`, and the generators' private
`singularize` matches the `"aves"` suffix and returns `"leaf"`.  Neither
implementation returns `"leave"`. -/
theorem singularize_leaves_evaluation :
    TextUtils.singularize ("leaves".toList) = some ("leafe".toList) ∧
    Generators.singularize ("leaves".toList) = some ("leaf".toList) := by decide

/-- Claim C3: `pluralize` implements the claimed ordered rule list —
(1) s/sh/ch/x/z append `es`; (2) `y` not after a vowel drops the `y` and
appends `ies`; (3) `fe` drops `fe` and appends `ves`; (4) `f` (not `fe`)
drops `f` and appends `ves`; (5) otherwise append `s` — with conditions on
the lowercased word and substitution into the original-cased word; and the
four literal scenarios hold.  (`TextUtils::pluralize` returns the input
unchanged on the empty string, hence the nonemptiness hypothesis there; the
generators' version follows the rule list on every input.) -/
theorem pluralize_follows_spec_rule_list :
    (∀ w : List Char, w ≠ [] → TextUtils.pluralize w = some (pluralizeRulesSpec w)) ∧
    (∀ w : List Char, Generators.pluralize w = some (pluralizeRulesSpec w)) ∧
    TextUtils.pluralize ("cat".toList) = some ("cats".toList) ∧
    TextUtils.pluralize ("box".toList) = some ("boxes".toList) ∧
    TextUtils.pluralize ("city".toList) = some ("cities".toList) ∧
    TextUtils.pluralize ("leaf".toList) = some ("leaves".toList) :=
  ⟨textPluralize_eq_spec, generatorsPluralize_eq_spec,
    by decide, by decide, by decide, by decide⟩

/-- Witness for C3 at the concrete word `"cat"`. -/
theorem pluralize_follows_spec_rule_list_witness :
    TextUtils.pluralize ("cat".toList) = some (pluralizeRulesSpec ("cat".toList)) :=
  pluralize_follows_spec_rule_list.1 ("cat".toList) (by decide)

/-- Claim C4 (counterexample): the claimed word model — split only at
transitions into an uppercase letter preceded by a non-uppercase character,
treat hyphens as boundaries, join the words with `'_'` — disagrees with the
code on `"xAB-C"`: the code inserts `'_'` before every uppercase character
(also inside the run `AB`) and copies the hyphen through unchanged, giving
`"x_a_b-_c"`, while the claimed model gives `"x_ab_c"`. -/
theorem toSnakeCase_claim4_counterexample :
    TextUtils.to_snake_case ("xAB-C".toList) = "x_a_b-_c".toList ∧
    toSnakeCaseClaim4 ("xAB-C".toList) = "x_ab_c".toList ∧
    TextUtils.to_snake_case ("xAB-C".toList) ≠ toSnakeCaseClaim4 ("xAB-C".toList) := by
  decide

/-- Claim C4 (amended): `to_snake_case` lowercases its first character, and
before every later uppercase character inserts `'_'` and lowercases it;
underscores and hyphens are copied through unchanged (hyphens are not
converted to underscores), as in `amendedSnake`/`snakeTail`; in particular
`"a-b"` is returned unchanged. -/
theorem toSnakeCase_amended_description :
    (∀ s : List Char, TextUtils.to_snake_case s = amendedSnake s) ∧
    TextUtils.to_snake_case ("a-b".toList) = "a-b".toList :=
  ⟨to_snake_eq_amended, by decide⟩

/-- Claim C5: in `to_snake_case` a run of consecutive uppercase letters is
not grouped: every uppercase character after the first character starts a new
word, so `"HTTPSConnection"` maps to `"h_t_t_p_s_connection"`; in general,
for a nonempty front `l1` and uppercase `c`, the encoding of `l1 ++ c :: l2`
is the encoding of `l1`, then `'_'`, then the lowercase of `c`, then the rest
encoded by `snakeTail`. -/
theorem toSnakeCase_uppercase_each_splits :
    TextUtils.to_snake_case ("HTTPSConnection".toList) = "h_t_t_p_s_connection".toList ∧
    ∀ (l1 : List Char) (c : Char) (l2 : List Char), l1 ≠ [] → rustIsUppercase c = true →
      TextUtils.to_snake_case (l1 ++ c :: l2) =
        TextUtils.to_snake_case l1 ++ '_' :: asciiLowerChar c :: snakeTail l2 :=
  ⟨by decide, fun l1 c l2 h1 h2 => snake_insert l1 l2 c h1 h2⟩

/-- Witness for C5 at `l1 = "a"`, `c = 'B'`, `l2 = "c"`. -/
theorem toSnakeCase_uppercase_each_splits_witness :
    TextUtils.to_snake_case (['a'] ++ 'B' :: ['c']) =
      TextUtils.to_snake_case ['a'] ++ '_' :: asciiLowerChar 'B' :: snakeTail ['c'] :=
  toSnakeCase_uppercase_each_splits.2 ['a'] 'B' ['c'] (by decide) (by decide)

/-- Claim C6 (counterexample): the round trip does not hold for every word
matched by `pluralize` rule 1.  The word `"İs"` satisfies the rule-1
condition (its lowercase form `i`+U+0307+`s` ends in `s`) and `pluralize`
maps it to `"İses"`, but `singularize("İses")` computes `before_es` as the
byte slice `&lower[word.len()-3..word.len()-2]` — indices taken from the
5-byte word but applied to the 6-byte lowercase string, landing inside
U+0307 — and panics (`none` in the model) instead of returning the word. -/
theorem singularize_pluralize_rule1_counterexample :
    endsWith (strToLower ("İs".toList)) ['s'] = true ∧
    (TextUtils.pluralize ("İs".toList)).bind TextUtils.singularize = none ∧
    (TextUtils.pluralize ("İs".toList)).bind TextUtils.singularize ≠ some ("İs".toList) := by
  decide

/-- Claim C6 (amended): for every word matched by `pluralize` rule 1 (its
lowercased form ends in `s`, `sh`, `ch`, `x` or `z`) whose lowercasing
preserves its byte length — in particular every ASCII word —
`singularize (pluralize word)` returns the word itself. -/
theorem singularize_pluralize_rule1_roundtrip :
    ∀ w : List Char, (endsWith (strToLower w) ['s'] || endsWith (strToLower w) ['s', 'h'] ||
        endsWith (strToLower w) ['c', 'h'] || endsWith (strToLower w) ['x'] ||
        endsWith (strToLower w) ['z']) = true →
      byteLen (strToLower w) = byteLen w →
      (TextUtils.pluralize w).bind TextUtils.singularize = some w :=
  pluralize_singularize_rule1

/-- Witness for C6 (amended) at the concrete word `"box"`. -/
theorem singularize_pluralize_rule1_roundtrip_witness :
    (TextUtils.pluralize ("box".toList)).bind TextUtils.singularize = some ("box".toList) :=
  singularize_pluralize_rule1_roundtrip ("box".toList) (by decide) (by decide)

/-- Claim C7 (counterexample): `to_snake_case` is not idempotent on every
string.  U+1D400 MATHEMATICAL BOLD CAPITAL A is uppercase but is its own
lowercase image, so each pass over `"a𝐀"` inserts a fresh underscore:
the first pass gives `"a_𝐀"`, the second `"a__𝐀"`. -/
theorem toSnakeCase_not_idempotent :
    TextUtils.to_snake_case (TextUtils.to_snake_case ("a𝐀".toList)) ≠
      TextUtils.to_snake_case ("a𝐀".toList) := by decide

/-- Claim C7 (amended): `to_snake_case` is idempotent on every string in
which no character's lowercase image is itself uppercase — in particular on
every ASCII string. -/
theorem toSnakeCase_idempotent_on_lowerable :
    ∀ x : List Char, (∀ c ∈ x, rustIsUppercase (asciiLowerChar c) = false) →
      TextUtils.to_snake_case (TextUtils.to_snake_case x) = TextUtils.to_snake_case x := by
  intro x hx
  rw [to_snake_eq_amended x, to_snake_eq_amended]
  apply amendedSnake_id
  intro d hd
  rcases mem_amendedSnake hd with rfl | ⟨c, hc, rfl⟩
  · exact rustIsUppercase_underscore
  · exact hx c hc

/-- Witness for C7 (amended) at the concrete string `"Ab"`. -/
theorem toSnakeCase_idempotent_on_lowerable_witness :
    TextUtils.to_snake_case (TextUtils.to_snake_case ("Ab".toList)) =
      TextUtils.to_snake_case ("Ab".toList) :=
  toSnakeCase_idempotent_on_lowerable ("Ab".toList) (by decide)

/-- Claim C8: for every input already in one of the supported cases
(snake_case, PascalCase, camelCase, kebab-case), converting through snake
case preserves the word boundaries:
`to_pascal_case (to_snake_case x) = to_pascal_case x`; in particular
`"UserProfile"` round-trips to itself. -/
theorem pascal_snake_roundtrip_supported :
    (∀ x : List Char, isSupportedCase x = true →
      TextUtils.to_pascal_case (TextUtils.to_snake_case x) = TextUtils.to_pascal_case x) ∧
    TextUtils.to_pascal_case (TextUtils.to_snake_case ("UserProfile".toList)) =
      "UserProfile".toList :=
  ⟨fun x _ => pascal_snake_all x, by decide⟩

/-- Witness for C8 at the concrete PascalCase input `"UserProfile"`. -/
theorem pascal_snake_roundtrip_supported_witness :
    isSupportedCase ("UserProfile".toList) = true ∧
    TextUtils.to_pascal_case (TextUtils.to_snake_case ("UserProfile".toList)) =
      TextUtils.to_pascal_case ("UserProfile".toList) :=
  ⟨by decide, pascal_snake_roundtrip_supported.1 ("UserProfile".toList) (by decide)⟩

/-- Claim C9 (counterexample): not every implementation maps the empty string
to itself: the generators' private `pluralize` has no empty-string guard, so
no suffix rule matches and the default rule appends `s`, returning `"s"`. -/
theorem generators_pluralize_empty_counterexample :
    Generators.pluralize [] = some ['s'] ∧ Generators.pluralize [] ≠ some [] := by decide

/-- Claim C9 (amended): the case conversions map the empty string to the
empty string in every implementation, and so does `TextUtils::pluralize`
(and `singularize`); but the private `pluralize` of src/generators/mod.rs
and of src/commands/make.rs map the empty string to `"s"`. -/
theorem empty_input_behavior :
    TextUtils.to_snake_case [] = [] ∧ TextUtils.to_pascal_case [] = [] ∧
    TextUtils.to_camel_case [] = [] ∧ TextUtils.to_kebab_case [] = [] ∧
    Generators.to_title_case [] = [] ∧ Generators.to_camel_case [] = some [] ∧
    TextUtils.pluralize [] = some [] ∧ TextUtils.singularize [] = some [] ∧
    Generators.singularize [] = some [] ∧
    Generators.pluralize [] = some ['s'] ∧ Make.pluralize [] = some ['s'] := by decide

/-- Claim C10: the repository's pluralize implementations are not
extensionally equal: the private `pluralize` of src/commands/make.rs applies
its `ies` rule to every word ending in `y` of length > 1 without a vowel
check, so `"day"` becomes `"daies"`, while `TextUtils::pluralize` excludes
the vowel+`y` ending `ay` and returns `"days"`. -/
theorem pluralize_implementations_diverge_on_day :
    Make.pluralize ("day".toList) = some ("daies".toList) ∧
    TextUtils.pluralize ("day".toList) = some ("days".toList) ∧
    Make.pluralize ("day".toList) ≠ TextUtils.pluralize ("day".toList) := by decide
